import Mathlib

/-!
Verification of the renamer-browser core (image-processing-shell repository).

Shallow embedding of the four core modules:
  * `models/file_manager.py`   — filename generation, single and batch rename
  * `models/tag_manager.py`    — tag validation and catalog maintenance
  * `models/filename_parser.py`— tokenising filenames and tag statistics
  * `models/thumbnail_manager.py` — disk thumbnail cache with freshness check

Paths are modelled as plain strings that are already canonical (the Python
code calls `Path(...).expanduser().resolve()` on entry; canonicalisation
itself is an OS service outside the embedding).  The filesystem is a state
record mapping paths to regular-file identities (inode numbers, which is
what `Path.samefile` compares) and to directory flags.  Machine floats
(mtimes) are abstracted to naturals; only their ordering is used, which is
what the code uses.
-/

namespace ImageShell

/-! ### Python string primitives (str.lower / str.strip / f-string padding)

`pyToLower` models `str.lower` on the ASCII range (`Char.toLower` lowercases
exactly the letters A-Z); all strings the claims exercise through `lower()`
are ASCII.  `pyStrip` models `str.strip()` for ASCII whitespace. -/

def pyToLower (s : String) : String := ⟨s.data.map Char.toLower⟩

def pyIsSpace (c : Char) : Bool :=
  c = ' ' || c = '\t' || c = '\n' || c = '\r' || c = '\x0b' || c = '\x0c'

def pyStrip (s : String) : String :=
  ⟨((s.data.dropWhile pyIsSpace).reverse.dropWhile pyIsSpace).reverse⟩

/-- Model of the f-string `f"{counter:03d}"`: the decimal representation
left-padded with zeros to a minimum width of 3. -/
def pad3 (n : Nat) : String :=
  let s := Nat.repr n
  ⟨List.replicate (3 - s.length) '0'⟩ ++ s

/-! ### POSIX path components (`pathlib.PurePath.name/.suffix/.stem`)

`pathName` is the part of the path after the last `/`.  `pathExtension` follows
the CPython property `PurePath.suffix`: the substring of `name` from its last dot,
unless that dot is the first or the last character of `name` (then `""`).
Both are expressed through the reversed character list, which makes the
"last dot" the first dot. -/

def pathName (p : String) : String :=
  ⟨(p.data.reverse.takeWhile (fun c => c ≠ '/')).reverse⟩

def pathExtension (p : String) : String :=
  let nrev := p.data.reverse.takeWhile (fun c => c ≠ '/')
  match nrev.dropWhile (fun c => c ≠ '.') with
  | [] => ""
  | _ :: b =>
    let a := nrev.takeWhile (fun c => c ≠ '.')
    if a.isEmpty || b.isEmpty then "" else ⟨'.' :: a.reverse⟩

def pathStem (p : String) : String :=
  let n := (pathName p).data
  ⟨n.take (n.length - (pathExtension p).data.length)⟩

/-- Model of extension.startswith with a dot argument: the first character is a dot. -/
def pyStartsWithDot (s : String) : Bool :=
  match s.data with
  | '.' :: _ => true
  | _ => false

/-- Model of `Path(destDir) / filename` for a canonical directory path. -/
def joinPath (d n : String) : String := d ++ "/" ++ n

/-! ### file_manager.py -/

/-- Constant `SUPPORTED_EXTENSIONS` of `file_manager.py` (a `set` in the source;
membership is all that is used). -/
def SUPPORTED_EXTENSIONS : List String := [".jpg", ".jpeg", ".png", ".jp2"]

/-- Model of `is_supported_image`: the lowercased suffix is a supported extension. -/
def is_supported_image (p : String) : Bool :=
  SUPPORTED_EXTENSIONS.contains (pyToLower (pathExtension p))

/-- Lexicographic comparison of character lists by code points, the order
Python uses to compare strings. -/
def lexLe : List Char → List Char → Bool
  | [], _ => true
  | _ :: _, [] => false
  | c :: cs, d :: ds => if c = d then lexLe cs ds else decide (c < d)

/-- The comparison `sorted(tags, key=str.lower)` uses: case-insensitive
lexicographic order by code points. -/
def lowerLe (a b : String) : Prop :=
  lexLe (pyToLower a).data (pyToLower b).data = true

instance instDecRelLowerLe : DecidableRel lowerLe := fun a b =>
  inferInstanceAs (Decidable (_ = true))

/-- Model of `sorted(tags, key=str.lower)`: a stable sort by the lowercased key.
the Python sort is stable, as is insertion sort, and a stable sort w.r.t. a
total preorder is unique, so the two agree. -/
def pySortedByLower (tags : List String) : List String :=
  List.insertionSort lowerLe tags

/-- Function `generate_filename` of `file_manager.py` (lines 112-168). -/
def generate_filename (pre : String) (tags : List String) (suf : String)
    (ext : String) (counter : Nat) : String :=
  let sorted_tags := pySortedByLower tags
  let parts := (if pre = "" then [] else [pre]) ++ sorted_tags
      ++ (if suf = "" then [] else [suf])
  let base := if parts.isEmpty then "untitled" else String.intercalate "_" parts
  let withCounter := base ++ "_" ++ pad3 counter
  let ext2 := if ext ≠ "" ∧ ¬ pyStartsWithDot ext then "." ++ ext else ext
  withCounter ++ ext2

/-! ### filename_parser.py -/

/-- Model of the SEPARATORS pattern (runs of underscore, hyphen or
whitespace): a character splitting tokens. -/
def pySepChar (c : Char) : Bool := c = '_' || c = '-' || pyIsSpace c

/-- Helper for `re.split` on runs of separators with empty parts discarded:
`acc` is the current token, reversed. -/
def splitTokensAux : List Char → List Char → List String
  | acc, [] => if acc.isEmpty then [] else [⟨acc.reverse⟩]
  | acc, c :: rest =>
    if pySepChar c then
      if acc.isEmpty then splitTokensAux [] rest
      else ⟨acc.reverse⟩ :: splitTokensAux [] rest
    else splitTokensAux (c :: acc) rest

/-- Method `FilenameParser.parse_filename`: strip the extension, split the stem on
runs of `_`/`-`/whitespace, drop empty parts. -/
def parse_filename (fn : String) : List String :=
  splitTokensAux [] (pathStem fn).data

/-- The `_tag_lookup` dict: case-insensitive lookup returning the
catalog-canonical form.  (The source builds the dict from a `set` of the
known tags; when two known tags differ only by case the set iteration
order — and hence the canonical representative — is unspecified, and this
model picks the first in list order.) -/
def tagLookup (knownTags : List String) (lowered : String) : Option String :=
  knownTags.find? (fun t => pyToLower t = lowered)

/-- Method `FilenameParser.identify_tags_in_filename` (lines 46-65): each token that
matches a known tag contributes the canonical form, duplicates kept. -/
def identify_tags_in_filename (knownTags : List String) (fn : String) :
    List String :=
  (parse_filename fn).filterMap (fun part => tagLookup knownTags (pyToLower part))

/-- The tag counter of `find_common_patterns` (lines 104-107): a `Counter`
updated with every per-file tag list, so it counts every matched occurrence. -/
def tag_frequency (knownTags : List String) (filenames : List String)
    (t : String) : Nat :=
  ((filenames.map (identify_tags_in_filename knownTags)).flatten).count t

/-- The key set of a `Counter` built by repeated `update`, in first-insertion
order (Python dicts iterate in insertion order). -/
def counterKeys (l : List String) : List String :=
  l.foldl (fun acc t => if t ∈ acc then acc else acc ++ [t]) []

/-- Field `suggested_tags` of `find_common_patterns` (lines 109-114): tags whose
counter value reaches `len(filenames) / 2` (Python real division, so
`count ≥ n/2` is `2*count ≥ n`). -/
def suggested_tags (knownTags : List String) (filenames : List String) :
    List String :=
  if filenames.isEmpty then []
  else
    let allTags := (filenames.map (identify_tags_in_filename knownTags)).flatten
    (counterKeys allTags).filter (fun t => filenames.length ≤ 2 * allTags.count t)

/-! ### tag_manager.py

The catalog state that the claims concern is the in-memory tag list
`self._tag_data["tags"]`; timestamps and version metadata are carried along
by the code but never branch on, so they are omitted.  Persistence writes
the current list; `load_tags` takes the (parsed) backing-file content as an
explicit input. -/

def DEFAULT_TAGS : List String :=
  ["comics", "nancy", "sluggo", "popart", "warhol", "fineart",
   "advertising", "logos", "food", "horror", "western"]

/-- A character matched by the Python class `\w` under `re.UNICODE` (the default for
`str` patterns): ASCII alphanumerics, underscore, and all other Unicode word
characters.  The Unicode table is reproduced exactly for the ASCII and
Latin-1 ranges, which covers every string the theorems below evaluate;
code points at U+0100 and above are outside this embedding and mapped to
`false`. -/
def isPyWordChar (c : Char) : Bool :=
  c.isAlphanum || c = '_' ||
    (c.val.toNat == 0xAA || c.val.toNat == 0xB2 || c.val.toNat == 0xB3 ||
     c.val.toNat == 0xB5 || c.val.toNat == 0xB9 || c.val.toNat == 0xBA ||
     c.val.toNat == 0xBC || c.val.toNat == 0xBD || c.val.toNat == 0xBE ||
     (0xC0 ≤ c.val.toNat && c.val.toNat ≤ 0xFF &&
      c.val.toNat != 0xD7 && c.val.toNat != 0xF7))

/-- Model of `VALID_TAG_PATTERN`, the compiled regex `"^[\w-]+$"` applied with `.match` to
an already-stripped candidate (so the end-of-string `$`-before-newline
subtlety cannot arise): one or more word characters or hyphens. -/
def validTagPattern (s : String) : Bool :=
  !s.data.isEmpty && s.data.all (fun c => isPyWordChar c || c = '-')

/-- Method `TagManager.validate_tag` (lines 68-81), as a function of the current
tag list.  It is read-only: the embedding returns only the verdict. -/
def validate_tag (tags : List String) (tag : String) : Bool × String :=
  let candidate := pyStrip tag
  if candidate = "" then (false, "Tag cannot be empty")
  else if ¬ validTagPattern candidate then
    (false, "Tags may only contain letters, numbers, underscores, or hyphens")
  else if (tags.map pyToLower).contains (pyToLower candidate) then
    (false, "Tag already exists")
  else (true, "OK")

/-- Method `TagManager.add_tag` (lines 83-94): validate, then append the stripped
candidate and persist. -/
def add_tag (tags : List String) (tag : String) :
    (Bool × String) × List String :=
  match validate_tag tags tag with
  | (false, m) => ((false, m), tags)
  | (true, _) => ((true, "Tag added successfully"), tags ++ [pyStrip tag])

/-- The `lower_map` dict comprehension of `remove_tag`: index of the last
tag whose lowercase form matches (later entries overwrite earlier ones). -/
def lowerLastIdx (tags : List String) (lowered : String) : Option Nat :=
  ((tags.enum.filter (fun it => pyToLower it.2 = lowered)).getLast?).map
    (fun it => it.1)

/-- Method `TagManager.remove_tag` (lines 103-119). -/
def remove_tag (tags : List String) (tag : String) :
    (Bool × String) × List String :=
  let candidate := pyStrip tag
  if candidate = "" then ((false, "Tag cannot be empty"), tags)
  else
    match lowerLastIdx tags (pyToLower candidate) with
    | none => ((false, "Tag not found"), tags)
    | some idx => ((true, "Tag removed"), tags.eraseIdx idx)

/-- The parsed content of `tags.json` as `_load_tag_data` (lines 135-161)
distinguishes it: the file may be missing, fail `json.load`, or parse; a
parsed file contributes a `tags` value only when it is a JSON object whose
`"tags"` key holds a list of strings. -/
inductive TagFileContent where
  | missing
  | unparsable
  | parsed (tags : Option (List String))
deriving DecidableEq

/-- Method `TagManager._load_tag_data` (lines 135-161), restricted to the tag list:
missing or corrupt files and ill-typed or empty tag lists fall back to the
defaults; any other well-typed list is adopted verbatim. -/
def load_tags (defaults : List String) : TagFileContent → List String
  | .missing => defaults
  | .unparsable => defaults
  | .parsed none => defaults
  | .parsed (some ts) => if ts.isEmpty then defaults else ts

/-- Case-insensitive uniqueness of the catalog. -/
def ciUnique (tags : List String) : Prop := (tags.map pyToLower).Nodup

/-- The catalog invariant claimed by the spec: case-insensitive uniqueness
and nonemptiness. -/
def catalogInv (tags : List String) : Prop := ciUnique tags ∧ tags ≠ []

instance (tags : List String) : Decidable (ciUnique tags) :=
  inferInstanceAs (Decidable (List.Nodup _))

instance (tags : List String) : Decidable (catalogInv tags) :=
  inferInstanceAs (Decidable (_ ∧ _))

/-! ### file_manager.py — rename engine

The filesystem state: regular files carry an identity (device/inode pair
abstracted to a natural), which is what `Path.samefile` compares; other
path kinds relevant to the code are directories.  `shutil.move` onto a
non-existing destination path is an atomic rename. -/

structure FS where
  file : String → Option Nat
  dir : String → Bool

def pathExists (fs : FS) (p : String) : Bool := (fs.file p).isSome || fs.dir p

/-- Model of `Path.samefile`: both paths hold regular files with the same identity
(directories never share an identity with a regular file). -/
def sameFile (fs : FS) (a b : String) : Bool :=
  match fs.file a, fs.file b with
  | some i, some j => i == j
  | _, _ => false

/-- Model of `shutil.move(src, dst)` with `dst` not existing: the file identity
moves to `dst`. -/
def moveFile (fs : FS) (src dst : String) : FS :=
  { file := fun p => if p = dst then fs.file src else if p = src then none else fs.file p,
    dir := fs.dir }

/-- Model of `dest_dir.mkdir(parents=True, exist_ok=True)`, restricted to the
destination directory itself. -/
def mkdirP (fs : FS) (d : String) : FS :=
  { fs with dir := fun p => if p = d then true else fs.dir p }

/-- Outcome of the unique-filename search loop of `rename_file`
(lines 278-309). -/
inductive FindOutcome where
  | found (name : String) (counter : Nat)
  | same (name : String) (counter : Nat)
  | exhausted (counter : Nat)
deriving DecidableEq

/-- The `while True` loop of `rename_file` (lines 278-309): generate the
candidate name at the current counter; a free name wins; an existing
destination that is the same file as the source is a skip; otherwise the
counter is incremented and, past 9999, the loop raises (the `ValueError`
carries the incremented counter into the error result).  The loop body runs
at most 10000 times (counters up to 9999), so fuel 10001 is never
exhausted; the fuel-0 arm is unreachable. -/
def find_unique_name (fs : FS) (src destDir pre : String) (tags : List String)
    (suf ext : String) : Nat → Nat → FindOutcome
  | c, 0 => .exhausted c
  | c, fuel+1 =>
    let name := generate_filename pre tags suf ext c
    let dest := joinPath destDir name
    if pathExists fs dest = false then .found name c
    else if sameFile fs dest src = true then .same name c
    else if 9999 < c + 1 then .exhausted (c + 1)
    else find_unique_name fs src destDir pre tags suf ext (c + 1) fuel

/-- The result dictionary of `rename_file`.  `skipped` is present (true)
only in the skip result; `error` only in failure results. -/
structure RenameResult where
  success : Bool
  old_path : String
  new_path : String
  filename : String
  counter : Nat
  skipped : Bool
  error : Option String
deriving DecidableEq

/-- A failure dictionary of `rename_file` (lines 329-348). -/
def errResult (old : String) (c : Nat) (msg : String) : RenameResult :=
  { success := false, old_path := old, new_path := "", filename := "",
    counter := c, skipped := false, error := some msg }

/-- Function `rename_file` after source validation, starting from the
destination-directory handling (lines 267-327); `fs1` already reflects the
`mkdir` call. -/
def rename_validated (fs1 : FS) (src destDir pre : String)
    (tags : List String) (suf : String) (c : Nat) : RenameResult × FS :=
  if fs1.dir destDir = false then
    (errResult src c "Destination path is not a directory", fs1)
  else
    let ext := pathExtension src
    match find_unique_name fs1 src destDir pre tags suf ext c 10001 with
    | .same name k =>
      ({ success := true, old_path := src, new_path := joinPath destDir name,
         filename := name, counter := k, skipped := true, error := none }, fs1)
    | .exhausted k =>
      (errResult src k "Could not find unique filename after 9999 attempts", fs1)
    | .found name k =>
      ({ success := true, old_path := src, new_path := joinPath destDir name,
         filename := name, counter := k, skipped := false, error := none },
       moveFile fs1 src (joinPath destDir name))

/-- Function `rename_file` of `file_manager.py` (lines 203-348).  Validation errors
(raised ValueError exceptions) are caught by the function itself and become
failure results carrying the passed-in counter. -/
def rename_file (fs : FS) (src destDir pre : String) (tags : List String)
    (suf : String) (c : Nat) : RenameResult × FS :=
  if pathExists fs src = false then
    (errResult src c "Source file does not exist", fs)
  else if (fs.file src).isNone then
    (errResult src c "Source path is not a file", fs)
  else if is_supported_image src = false then
    (errResult src c "File format not supported", fs)
  else
    rename_validated
      (if pathExists fs destDir = false then mkdirP fs destDir else fs)
      src destDir pre tags suf c

/-- The counter update of the batch loop (lines 427-440): only a successful
non-skip rename advances the shared counter, to the counter actually used
plus one. -/
def nextCounter (r : RenameResult) (c : Nat) : Nat :=
  if r.success && !r.skipped then r.counter + 1 else c

/-- The loop of `batch_rename_files` (lines 412-471), returning
(results, successful, failed, skipped, errors) and the final filesystem.
The per-item `rename_file` call catches all exceptions internally, and the
catch-all of the batch loop also turns an unexpected exception into a failed
result, so every input contributes exactly one result either way. -/
def batchLoop (destDir pre : String) (tags : List String) (suf : String) :
    FS → List String → Nat →
    (List RenameResult × Nat × Nat × Nat × List RenameResult) × FS
  | fs, [], _ => (([], 0, 0, 0, []), fs)
  | fs, p :: rest, c =>
    let step := rename_file fs p destDir pre tags suf c
    let r := step.1
    let recd := batchLoop destDir pre tags suf step.2 rest (nextCounter r c)
    ((r :: recd.1.1,
      (if r.success && !r.skipped then recd.1.2.1 + 1 else recd.1.2.1),
      (if r.success then recd.1.2.2.1 else recd.1.2.2.1 + 1),
      (if r.success && r.skipped then recd.1.2.2.2.1 + 1 else recd.1.2.2.2.1),
      (if r.success then recd.1.2.2.2.2 else r :: recd.1.2.2.2.2)),
     recd.2)

/-- The summary dictionary of `batch_rename_files` (lines 473-480). -/
structure BatchSummary where
  total : Nat
  successful : Nat
  failed : Nat
  skipped : Nat
  results : List RenameResult
  errors : List RenameResult

/-- Function `batch_rename_files` of `file_manager.py` (lines 351-487).  The progress
callback only logs and cannot affect the outcome (its exceptions are caught),
so it is not modelled. -/
def batch_rename_files (fs : FS) (paths : List String) (destDir pre : String)
    (tags : List String) (suf : String) (start_counter : Nat) :
    BatchSummary × FS :=
  let r := batchLoop destDir pre tags suf fs paths start_counter
  ({ total := paths.length, successful := r.1.2.1, failed := r.1.2.2.1,
     skipped := r.1.2.2.2.1, results := r.1.1, errors := r.1.2.2.2.2 }, r.2)

/-- The candidate destination path the search loop probes at counter `k`. -/
def candidatePath (destDir pre : String) (tags : List String) (suf ext : String)
    (k : Nat) : String :=
  joinPath destDir (generate_filename pre tags suf ext k)

/-- A collision: the candidate path at `k` is occupied by something that is
not the source itself. -/
def collides (fs : FS) (src destDir pre : String) (tags : List String)
    (suf ext : String) (k : Nat) : Prop :=
  pathExists fs (candidatePath destDir pre tags suf ext k) = true ∧
  sameFile fs (candidatePath destDir pre tags suf ext k) src = false

/-! ### thumbnail_manager.py

State for the cache claims: file modification times (floats in the source,
abstracted to naturals — only their ordering is compared) and whether
Pillow can decode a given source image.  The MD5 hex digest used for cache
file names is modelled by an abstract deterministic encoding of the
canonical path; the code relies only on its determinism. -/

structure TFS where
  mtime : String → Option Nat
  decodable : String → Bool

def hashName (p : String) : String :=
  ⟨p.data.map (fun c => if c = '/' then '!' else c)⟩

/-- Method `ThumbnailManager._cache_path_for` (lines 102-105). -/
def cache_path_for (cacheDir p : String) : String :=
  cacheDir ++ "/" ++ hashName p ++ ".jpg"

/-- Method `ThumbnailManager._is_cache_valid` (lines 92-100): the cache file exists
and its mtime is at least that of the source; a stat failure (either file
missing) yields false. -/
def is_cache_valid (fs : TFS) (img cache : String) : Bool :=
  match fs.mtime cache with
  | none => false
  | some cm =>
    match fs.mtime img with
    | none => false
    | some im => decide (im ≤ cm)

/-- Writing (or overwriting) a file at `p` at time `now`. -/
def writeFileAt (fs : TFS) (p : String) (now : Nat) : TFS :=
  { fs with mtime := fun q => if q = p then some now else fs.mtime q }

/-- The observable outcome of one thumbnail call: the returned path, whether
a Pillow decode was attempted, whether the error placeholder was written
(`_create_error_thumbnail`, lines 126-153), and the filesystem after. -/
structure ThumbResult where
  path : String
  attemptedDecode : Bool
  wroteError : Bool
  fs : TFS

/-- Method `ThumbnailManager._generate_thumbnail` (lines 107-124): unsupported
extensions go straight to the error placeholder; otherwise Pillow decodes,
and any failure is converted into the error placeholder at the same cache
path.  Both outcomes write the cache file. -/
def generate_thumbnail (fs : TFS) (img cache : String) (now : Nat) :
    ThumbResult :=
  if is_supported_image img = false then
    { path := cache, attemptedDecode := false, wroteError := true,
      fs := writeFileAt fs cache now }
  else if fs.decodable img then
    { path := cache, attemptedDecode := true, wroteError := false,
      fs := writeFileAt fs cache now }
  else
    { path := cache, attemptedDecode := true, wroteError := true,
      fs := writeFileAt fs cache now }

/-- Method `ThumbnailManager.get_thumbnail` (lines 42-50). -/
def get_thumbnail (fs : TFS) (cacheDir img : String) (now : Nat) :
    ThumbResult :=
  let cache := cache_path_for cacheDir img
  if is_cache_valid fs img cache then
    { path := cache, attemptedDecode := false, wroteError := false, fs := fs }
  else generate_thumbnail fs img cache now

/-- The queueing state of `ThumbnailManager`: the `_inflight` registry
(a dict, hence at most one entry per canonical path), which futures have
settled, and a supply of fresh future handles.  The claims concern the
registry logic; the mutex serialising it is the sequential semantics of
these functions. -/
structure QState where
  inflight : String → Option Nat
  isDone : Nat → Bool
  nextId : Nat

/-- Model of the executor submit call plus registering the new future. -/
def submit_generation (st : QState) (p : String) : Nat × QState :=
  (st.nextId,
   { inflight := fun q => if q = p then some st.nextId else st.inflight q,
     isDone := st.isDone, nextId := st.nextId + 1 })

/-- Method `ThumbnailManager.queue_thumbnail` (lines 52-72).  Here `cacheValid` is the
result of the freshness check (a fact about the disk, not about this
state); when the cache is valid a fresh, already-resolved future is
returned without touching the registry. -/
def queue_thumbnail (st : QState) (p : String) (cacheValid : Bool) :
    Nat × QState :=
  if cacheValid then
    (st.nextId,
     { st with nextId := st.nextId + 1,
               isDone := fun f => if f = st.nextId then true else st.isDone f })
  else
    match st.inflight p with
    | some f => if st.isDone f = false then (f, st) else submit_generation st p
    | none => submit_generation st p

/-- A future settling (success or failure alike): the done-callback
registered at submission pops the registry entry for the path. -/
def settle_future (st : QState) (p : String) (f : Nat) : QState :=
  { inflight := fun q => if q = p then none else st.inflight q,
    isDone := fun g => if g = f then true else st.isDone g,
    nextId := st.nextId }

/-- Modelled from the spec, its words for `generate_filename` (as amended):
underscore-join of the parts [prefix when non-empty, the tags in a stable
case-insensitive sort of the given list, suffix when non-empty], the literal
"untitled" when there are no parts at all, then an underscore and the
counter zero-padded to 3 digits, then the extension normalized to begin
with a dot (an empty extension contributes nothing). -/
def generate_filename_spec (pre : String) (tags : List String) (suf ext : String)
    (c : Nat) : String :=
  let parts := (if pre = "" then [] else [pre]) ++ pySortedByLower tags
      ++ (if suf = "" then [] else [suf])
  (if parts = [] then "untitled" else String.intercalate "_" parts)
    ++ "_" ++ pad3 c
    ++ (if ext = "" then "" else if pyStartsWithDot ext then ext else "." ++ ext)

/-! ### Concrete fixtures used by witnesses and counterexamples -/

/-- An empty filesystem. -/
def fsEmpty : FS := { file := fun _ => none, dir := fun _ => false }

/-- A queue state with one pending generation for `/a.jpg` (future 0). -/
def qstW : QState :=
  { inflight := fun p => if p = "/a.jpg" then some 0 else none,
    isDone := fun _ => false, nextId := 1 }

/-- A thumbnail filesystem with one undecodable source image and an empty
cache. -/
def tfsW : TFS :=
  { mtime := fun p => if p = "/pics/a.jpg" then some 5 else none,
    decodable := fun _ => false }

/-- A filesystem with a single image file in the directory `/d`. -/
def fsW : FS :=
  { file := fun p => if p = "/d/x.jpg" then some 1 else none,
    dir := fun p => p == "/d" }

/-! ## Theorems -/

/-! ### Order facts about the tag comparison -/

theorem lexLe_total : ∀ a b : List Char, lexLe a b = true ∨ lexLe b a = true := by
  intro a
  induction a with
  | nil => intro b; left; rfl
  | cons c cs ih =>
    intro b
    cases b with
    | nil => right; rfl
    | cons d ds =>
      by_cases h : c = d
      · subst h
        rcases ih ds with h1 | h1
        · left; simp [lexLe, h1]
        · right; simp [lexLe, h1]
      · rcases lt_trichotomy c d with hlt | heq | hgt
        · left; simp [lexLe, h, hlt]
        · exact absurd heq h
        · right; simp [lexLe, Ne.symm h, hgt]

theorem lexLe_trans : ∀ a b c : List Char,
    lexLe a b = true → lexLe b c = true → lexLe a c = true := by
  intro a
  induction a with
  | nil => intro b c _ _; rfl
  | cons x xs ih =>
    intro b c hab hbc
    cases b with
    | nil => simp [lexLe] at hab
    | cons y ys =>
      cases c with
      | nil => simp [lexLe] at hbc
      | cons z zs =>
        by_cases hxy : x = y <;> by_cases hyz : y = z
        · subst hxy; subst hyz
          simp only [lexLe, if_pos rfl] at hab hbc ⊢
          exact ih _ _ hab hbc
        · subst hxy
          simp only [lexLe, if_pos rfl] at hab
          simp only [lexLe, if_neg hyz] at hbc ⊢
          exact hbc
        · subst hyz
          simp only [lexLe, if_neg hxy] at hab ⊢
          exact hab
        · simp only [lexLe, if_neg hxy] at hab
          simp only [lexLe, if_neg hyz] at hbc
          have hxz : x < z := lt_trans (of_decide_eq_true hab) (of_decide_eq_true hbc)
          simp [lexLe, ne_of_lt hxz, hxz]

theorem lexLe_antisymm : ∀ a b : List Char,
    lexLe a b = true → lexLe b a = true → a = b := by
  intro a
  induction a with
  | nil =>
    intro b _ hba
    cases b with
    | nil => rfl
    | cons d ds => simp [lexLe] at hba
  | cons c cs ih =>
    intro b hab hba
    cases b with
    | nil => simp [lexLe] at hab
    | cons d ds =>
      by_cases h : c = d
      · subst h
        simp only [lexLe, if_pos rfl] at hab hba
        rw [ih ds hab hba]
      · simp only [lexLe, if_neg h, if_neg (Ne.symm h)] at hab hba
        exact absurd (lt_trans (of_decide_eq_true hab) (of_decide_eq_true hba))
          (lt_irrefl c)

instance : IsTotal String lowerLe := ⟨fun a b => lexLe_total _ _⟩

instance : IsTrans String lowerLe := ⟨fun _ _ _ => lexLe_trans _ _ _⟩

theorem lowerLe_antisymm {a b : String} (h1 : lowerLe a b) (h2 : lowerLe b a) :
    pyToLower a = pyToLower b := by
  have h := lexLe_antisymm _ _ h1 h2
  calc pyToLower a = ⟨(pyToLower a).data⟩ := rfl
    _ = ⟨(pyToLower b).data⟩ := by rw [h]
    _ = pyToLower b := rfl

/-- A stable sort is unique: two permutations of the same multiset whose
lowercased keys are pairwise distinct sort to the same list. -/
theorem pySortedByLower_perm_eq {l1 l2 : List String}
    (hp : l1.Perm l2) (hnd : (l1.map pyToLower).Nodup) :
    pySortedByLower l1 = pySortedByLower l2 := by
  have hs1 : List.Sorted lowerLe (pySortedByLower l1) :=
    List.sorted_insertionSort lowerLe l1
  have hs2 : List.Sorted lowerLe (pySortedByLower l2) :=
    List.sorted_insertionSort lowerLe l2
  have hp1 : (pySortedByLower l1).Perm l1 := List.perm_insertionSort lowerLe l1
  have hp2 : (pySortedByLower l2).Perm l2 := List.perm_insertionSort lowerLe l2
  have hps : (pySortedByLower l1).Perm (pySortedByLower l2) :=
    (hp1.trans hp).trans hp2.symm
  have hnd1 : ((pySortedByLower l1).map pyToLower).Nodup :=
    ((hp1.map pyToLower).symm.nodup_iff).mp hnd
  have hnd2 : ((pySortedByLower l2).map pyToLower).Nodup :=
    ((hps.map pyToLower).nodup_iff).mp hnd1
  set r2 : String → String → Prop :=
    fun a b => lowerLe a b ∧ pyToLower a ≠ pyToLower b with hr2
  haveI : IsAntisymm String r2 :=
    ⟨fun a b hab hba => absurd (lowerLe_antisymm hab.1 hba.1) hab.2⟩
  have sortedStrict : ∀ l : List String, List.Sorted lowerLe l →
      ((l.map pyToLower).Nodup) → List.Sorted r2 l := by
    intro l hs hnd
    have hne : l.Pairwise (fun a b => pyToLower a ≠ pyToLower b) :=
      List.pairwise_map.mp hnd
    exact hs.and hne
  exact List.eq_of_perm_of_sorted hps
    (sortedStrict _ hs1 hnd1) (sortedStrict _ hs2 hnd2)

/-! ### Claim C5 — generate_filename -/

theorem if_isEmpty_eq {α β : Type} [DecidableEq α] (l : List α) (x y : β) :
    (if l.isEmpty then x else y) = (if l = [] then x else y) := by
  cases l <;> simp

theorem extNorm (ext : String) :
    (if ext ≠ "" ∧ ¬ pyStartsWithDot ext then "." ++ ext else ext) =
    (if ext = "" then "" else if pyStartsWithDot ext then ext else "." ++ ext) := by
  by_cases h1 : ext = ""
  · subst h1; simp
  · by_cases h2 : pyStartsWithDot ext = true <;> simp [h1, h2]

/-- C5 counterexample: the two orderings of the tag list `["Art", "art"]`
are permutations of each other, yet `generate_filename` produces different
filenames for them — the sort key is the lowercased tag and the Python sort is
stable, so case-insensitively equal tags keep their input order.  The final
conjunct shows the output is also not the join of the non-empty parts: an
empty tag string is retained by the code (only prefix and suffix are
dropped when empty), not filtered out. -/
theorem generate_filename_perm_cex :
    (["Art", "art"] : List String).Perm ["art", "Art"] ∧
    generate_filename "" ["Art", "art"] "" ".jpg" 0 ≠
      generate_filename "" ["art", "Art"] "" ".jpg" 0 ∧
    generate_filename "" [""] "" ".jpg" 0 = "_000.jpg" :=
  ⟨by decide, by decide, by decide⟩

/-- C5 (amended): `generate_filename` returns the underscore-join of the
parts [prefix when non-empty, the given tags in a stable case-insensitive
sort (empty tag strings retained), suffix when non-empty] — the literal
"untitled" when no parts remain — followed by an underscore and the counter
zero-padded to 3 digits, followed by the extension normalized to begin with
a dot; it is a pure function (by the type of the embedding), and its output is
identical for every permutation of the same tag list provided no two tags
are equal up to lowercasing. -/
theorem generate_filename_correct :
    (∀ pre tags suf ext c,
      generate_filename pre tags suf ext c =
        generate_filename_spec pre tags suf ext c) ∧
    (∀ pre tags tags2 suf ext c, tags.Perm tags2 →
      (tags.map pyToLower).Nodup →
      generate_filename pre tags suf ext c =
        generate_filename pre tags2 suf ext c) := by
  constructor
  · intro pre tags suf ext c
    simp only [generate_filename, generate_filename_spec, if_isEmpty_eq, extNorm]
  · intro pre tags tags2 suf ext c hp hnd
    have h := pySortedByLower_perm_eq hp hnd
    simp only [generate_filename, h]

/-- Witness for the amended C5 theorem at a concrete input. -/
theorem generate_filename_correct_witness :
    ((["b", "A"] : List String).Perm ["A", "b"] ∧
        ((["b", "A"] : List String).map pyToLower).Nodup) ∧
    generate_filename "p" ["b", "A"] "s" "jpg" 7 =
      generate_filename "p" ["A", "b"] "s" "jpg" 7 :=
  ⟨⟨by decide, by decide⟩,
    generate_filename_correct.2 "p" ["b", "A"] ["A", "b"] "s" "jpg" 7
      (by decide) (by decide)⟩

/-! ### Claim C3 — tag frequency and suggestion threshold -/

theorem mem_foldl_insertKey (l : List String) :
    ∀ (acc : List String) (t : String),
      t ∈ l.foldl (fun acc t => if t ∈ acc then acc else acc ++ [t]) acc ↔
        t ∈ acc ∨ t ∈ l := by
  induction l with
  | nil => intro acc t; simp
  | cons x xs ih =>
    intro acc t
    simp only [List.foldl_cons]
    rw [ih]
    by_cases hx : x ∈ acc
    · simp only [if_pos hx, List.mem_cons]
      constructor
      · rintro (h | h)
        · exact Or.inl h
        · exact Or.inr (Or.inr h)
      · rintro (h | rfl | h)
        · exact Or.inl h
        · exact Or.inl hx
        · exact Or.inr h
    · simp only [if_neg hx, List.mem_append, List.mem_singleton, List.mem_cons]
      tauto

theorem mem_counterKeys (l : List String) (t : String) :
    t ∈ counterKeys l ↔ t ∈ l := by
  simpa [counterKeys] using mem_foldl_insertKey l [] t

/-- C3 counterexample: with known tag "comics" over the files
`comics_comics.jpg, a.jpg, b.jpg, c.jpg`, the analyzer reports frequency 2
(the duplicated token counts twice) although only one file contains the tag;
and the tag is suggested although it appears in only 1 of 4 files, below
the claimed half-the-file-count threshold. -/
theorem tag_frequency_cex :
    tag_frequency ["comics"] ["comics_comics.jpg", "a.jpg", "b.jpg", "c.jpg"]
        "comics" = 2 ∧
    (["comics_comics.jpg", "a.jpg", "b.jpg", "c.jpg"].filter
        (fun fn => decide ("comics" ∈ identify_tags_in_filename ["comics"] fn))).length
      = 1 ∧
    "comics" ∈
      suggested_tags ["comics"] ["comics_comics.jpg", "a.jpg", "b.jpg", "c.jpg"] ∧
    ¬ ((["comics_comics.jpg", "a.jpg", "b.jpg", "c.jpg"] : List String).length ≤
        2 * (["comics_comics.jpg", "a.jpg", "b.jpg", "c.jpg"].filter
          (fun fn =>
            decide ("comics" ∈ identify_tags_in_filename ["comics"] fn))).length) :=
  ⟨by decide, by decide, by decide, by decide⟩

/-- C3 (amended): the reported tag frequency is the total number of matched
token occurrences across all filenames (duplicate tokens within one
filename each count), and for a non-empty file list a tag is suggested iff
twice that occurrence count is at least the file count (inclusive
threshold). -/
theorem tag_frequency_spec :
    (∀ knownTags filenames t,
      tag_frequency knownTags filenames t =
        (filenames.map
          (fun fn => (identify_tags_in_filename knownTags fn).count t)).sum) ∧
    (∀ knownTags filenames t, filenames ≠ [] →
      (t ∈ suggested_tags knownTags filenames ↔
        filenames.length ≤ 2 * tag_frequency knownTags filenames t)) := by
  constructor
  · intro kt fns t
    simp only [tag_frequency, List.count_flatten, List.map_map]
    rfl
  · intro kt fns t hne
    have hlen : 0 < fns.length := List.length_pos.mpr hne
    simp only [suggested_tags, List.isEmpty_eq_true, if_neg hne, List.mem_filter,
      mem_counterKeys, decide_eq_true_eq, tag_frequency]
    constructor
    · rintro ⟨_, hcnt⟩; exact hcnt
    · intro h
      refine ⟨?_, h⟩
      rw [← List.count_pos_iff]
      omega

/-- Witness for the amended C3 theorem at a concrete input. -/
theorem tag_frequency_spec_witness :
    (["x_art.jpg", "b.jpg"] : List String) ≠ [] ∧
    ("art" ∈ suggested_tags ["art"] ["x_art.jpg", "b.jpg"] ↔
      (["x_art.jpg", "b.jpg"] : List String).length ≤
        2 * tag_frequency ["art"] ["x_art.jpg", "b.jpg"] "art") :=
  ⟨by decide, tag_frequency_spec.2 ["art"] ["x_art.jpg", "b.jpg"] "art" (by decide)⟩

/-! ### Claim C4 — validate_tag -/

theorem string_eq_empty_iff (s : String) : s = "" ↔ s.data = [] := by
  constructor
  · intro h
    have := congrArg String.data h
    simpa using this
  · intro h
    cases s with
    | mk d =>
      cases h
      rfl

theorem validTagPattern_iff (s : String) :
    validTagPattern s = true ↔
      s.data ≠ [] ∧ ∀ ch ∈ s.data, (isPyWordChar ch || ch = '-') = true := by
  simp [validTagPattern, List.all_eq_true, List.isEmpty_iff]

theorem validate_tag_true_iff (tags : List String) (tag : String) :
    (validate_tag tags tag).1 = true ↔
      (pyStrip tag ≠ "" ∧ validTagPattern (pyStrip tag) = true ∧
        pyToLower (pyStrip tag) ∉ tags.map pyToLower) := by
  have hmem : ((tags.map pyToLower).contains (pyToLower (pyStrip tag)) = true) ↔
      pyToLower (pyStrip tag) ∈ tags.map pyToLower := by simp
  unfold validate_tag
  by_cases h1 : pyStrip tag = ""
  · simp [h1]
  · rw [if_neg h1]
    by_cases h2 : validTagPattern (pyStrip tag) = true
    · rw [if_neg (not_not_intro h2)]
      by_cases h3 : pyToLower (pyStrip tag) ∈ tags.map pyToLower
      · rw [if_pos (hmem.mpr h3)]
        simp [h1, h2, h3]
      · rw [if_neg (fun hc => h3 (hmem.mp hc))]
        simp [h1, h2, h3]
    · rw [if_pos h2]
      simp [h1, h2]

/-- C4 counterexample: `"café"` passes validation against the default
catalog — the Python class `\w` is Unicode-aware, so the accepted characters are
not limited to `[A-Za-z0-9_-]` (the letter é is outside that class). -/
theorem validate_tag_unicode_cex :
    validate_tag DEFAULT_TAGS "café" = (true, "OK") ∧
    ¬ ∀ ch ∈ ("café" : String).data, (ch.isAlphanum || ch = '_' || ch = '-') = true :=
  ⟨by decide, by decide⟩

/-- C4 (amended): `validate_tag` succeeds exactly when the candidate after
trimming is non-empty, contains only characters matched by the Python
Unicode-aware `\w` class or hyphens, and is not a case-insensitive
duplicate of a catalog tag; each failure case returns false with the
corresponding reason, and the function is read-only (its embedding returns
only the verdict). -/
theorem validate_tag_spec :
    ∀ (tags : List String) (tag : String),
      ((validate_tag tags tag).1 = true ↔
        (pyStrip tag ≠ "" ∧
         (∀ ch ∈ (pyStrip tag).data, (isPyWordChar ch || ch = '-') = true) ∧
         pyToLower (pyStrip tag) ∉ tags.map pyToLower)) ∧
      (pyStrip tag = "" →
        validate_tag tags tag = (false, "Tag cannot be empty")) ∧
      (pyStrip tag ≠ "" → ¬ validTagPattern (pyStrip tag) = true →
        validate_tag tags tag =
          (false, "Tags may only contain letters, numbers, underscores, or hyphens")) ∧
      (pyStrip tag ≠ "" → validTagPattern (pyStrip tag) = true →
        pyToLower (pyStrip tag) ∈ tags.map pyToLower →
        validate_tag tags tag = (false, "Tag already exists")) := by
  intro tags tag
  refine ⟨?_, ?_, ?_, ?_⟩
  · rw [validate_tag_true_iff, validTagPattern_iff]
    constructor
    · rintro ⟨h1, ⟨_, h2⟩, h3⟩; exact ⟨h1, h2, h3⟩
    · rintro ⟨h1, h2, h3⟩
      exact ⟨h1, ⟨fun hd => h1 ((string_eq_empty_iff _).mpr hd), h2⟩, h3⟩
  · intro h; simp [validate_tag, h]
  · intro h1 h2; simp [validate_tag, h1, h2]
  · intro h1 h2 h3
    simp only [validate_tag]
    rw [if_neg h1, if_neg (not_not_intro h2), if_pos (by simpa using h3)]

/-- Witness for the amended C4 theorem at a concrete input. -/
theorem validate_tag_spec_witness :
    pyStrip "  " = "" ∧
    validate_tag ["art"] "  " = (false, "Tag cannot be empty") :=
  ⟨by decide, (validate_tag_spec ["art"] "  ").2.1 (by decide)⟩

/-! ### Claim C8 — catalog invariants -/

/-- C8 counterexample: `remove_tag` has no nonemptiness fallback — removing
the only tag of a single-tag catalog (a state reachable from the defaults,
as the final conjunct shows by removing all eleven default tags) leaves the
catalog empty, so the claimed "never empty" invariant is not preserved by
every operation. -/
theorem tag_catalog_empty_cex :
    catalogInv ["comics"] ∧
    (remove_tag ["comics"] "comics").1.1 = true ∧
    (remove_tag ["comics"] "comics").2 = [] ∧
    ¬ catalogInv (remove_tag ["comics"] "comics").2 ∧
    DEFAULT_TAGS.foldl (fun ts t => (remove_tag ts t).2) DEFAULT_TAGS = [] :=
  ⟨by decide, by decide, by decide, by decide, by decide⟩

/-- C8 (amended): after initialization, `add_tag` preserves the full
invariant (case-insensitive uniqueness and nonemptiness); `remove_tag`
preserves case-insensitive uniqueness but may empty the catalog; loading
falls back to the (invariant-satisfying) default set when the backing file
is missing, unparsable, ill-typed or empty, but adopts any other well-typed
tag list verbatim. -/
theorem tag_catalog_ops :
    (∀ tags t, catalogInv tags → catalogInv (add_tag tags t).2) ∧
    (∀ tags t, ciUnique tags → ciUnique (remove_tag tags t).2) ∧
    (∀ f, load_tags DEFAULT_TAGS f ≠ []) ∧
    (∀ ts, ts ≠ [] →
      load_tags DEFAULT_TAGS (TagFileContent.parsed (some ts)) = ts) ∧
    catalogInv DEFAULT_TAGS := by
  refine ⟨?_, ?_, ?_, ?_, by decide⟩
  · intro tags t hinv
    unfold add_tag
    cases hval : validate_tag tags t with
    | mk ok msg =>
      cases ok
      · simpa using hinv
      · have hv1 : (validate_tag tags t).1 = true := by rw [hval]
        have hspec := (validate_tag_true_iff tags t).mp hv1
        constructor
        · unfold ciUnique
          rw [List.map_append, List.nodup_append]
          refine ⟨hinv.1, by simp, ?_⟩
          intro x hx hx2
          simp only [List.map_cons, List.map_nil, List.mem_singleton] at hx2
          exact hspec.2.2 (hx2 ▸ hx)
        · simp
  · intro tags t h
    unfold remove_tag
    by_cases h1 : pyStrip t = ""
    · simpa [h1] using h
    · simp only [if_neg h1]
      cases hidx : lowerLastIdx tags (pyToLower (pyStrip t)) with
      | none => simpa using h
      | some idx =>
        exact ((List.eraseIdx_sublist tags idx).map pyToLower).nodup h
  · intro f
    cases f with
    | missing => decide
    | unparsable => decide
    | parsed o =>
      cases o with
      | none => decide
      | some ts =>
        by_cases hts : ts.isEmpty
        · simp only [load_tags, if_pos hts]; decide
        · simp only [load_tags, if_neg hts]
          simpa [List.isEmpty_eq_true] using hts
  · intro ts hts
    simp [load_tags, List.isEmpty_eq_true, hts]

/-- Witness for the amended C8 theorem at a concrete input. -/
theorem tag_catalog_ops_witness :
    catalogInv ["art"] ∧ catalogInv (add_tag ["art"] "new").2 :=
  ⟨by decide, tag_catalog_ops.1 ["art"] "new" (by decide)⟩

/-! ### Claim C1 — batch rename never loses an item -/

theorem batchLoop_counts (destDir pre : String) (tags : List String)
    (suf : String) :
    ∀ (paths : List String) (fs : FS) (c : Nat),
      (batchLoop destDir pre tags suf fs paths c).1.1.length = paths.length ∧
      (batchLoop destDir pre tags suf fs paths c).1.2.1 +
        (batchLoop destDir pre tags suf fs paths c).1.2.2.1 +
        (batchLoop destDir pre tags suf fs paths c).1.2.2.2.1 = paths.length := by
  intro paths
  induction paths with
  | nil => intro fs c; simp [batchLoop]
  | cons p rest ih =>
    intro fs c
    obtain ⟨hl, hc⟩ := ih (rename_file fs p destDir pre tags suf c).2
      (nextCounter (rename_file fs p destDir pre tags suf c).1 c)
    simp only [batchLoop]
    constructor
    · simpa using hl
    · cases hsuc : (rename_file fs p destDir pre tags suf c).1.success <;>
        cases hskip : (rename_file fs p destDir pre tags suf c).1.skipped <;>
        simp only [hsuc, hskip, Bool.not_true, Bool.not_false, Bool.and_true,
          Bool.and_false, Bool.true_and, Bool.false_and, Bool.and_self,
          if_true, if_false] <;>
        simp only [Bool.false_eq_true, if_false, if_true, reduceIte,
          List.length_cons] <;>
        omega

/-- C1: for every list of rename requests, the batch returns exactly one
individual result per input path, its counts satisfy
`successful + failed + skipped = total` with `total` the number of inputs,
and (the per-item call being total in this embedding, as in the source,
where both `rename_file` and the batch loop catch all exceptions and record
a failed result) a per-item failure never aborts processing of the rest. -/
theorem batch_rename_never_loses_items :
    ∀ fs paths destDir pre tags suf c,
      (batch_rename_files fs paths destDir pre tags suf c).1.results.length
          = paths.length ∧
      (batch_rename_files fs paths destDir pre tags suf c).1.successful +
        (batch_rename_files fs paths destDir pre tags suf c).1.failed +
        (batch_rename_files fs paths destDir pre tags suf c).1.skipped
          = (batch_rename_files fs paths destDir pre tags suf c).1.total ∧
      (batch_rename_files fs paths destDir pre tags suf c).1.total
          = paths.length := by
  intro fs paths destDir pre tags suf c
  obtain ⟨hl, hc⟩ := batchLoop_counts destDir pre tags suf paths fs c
  exact ⟨hl, hc, rfl⟩

/-! ### Claim C10 — counter advancement in the batch loop -/

/-- C10: the batch processes the head request and then the remaining
requests with the counter produced by `nextCounter`; a skipped item and a
failed item pass the incoming counter through unchanged, and only a
successful non-skip rename advances the counter to the value actually used
plus one. -/
theorem batch_counter_rule :
    ∀ fs paths destDir pre tags suf c p,
      ((batch_rename_files fs (p :: paths) destDir pre tags suf c).1.results =
        (rename_file fs p destDir pre tags suf c).1 ::
          (batch_rename_files (rename_file fs p destDir pre tags suf c).2 paths
            destDir pre tags suf
            (nextCounter (rename_file fs p destDir pre tags suf c).1 c)).1.results) ∧
      (∀ (r : RenameResult) c2, r.success = true → r.skipped = true →
        nextCounter r c2 = c2) ∧
      (∀ (r : RenameResult) c2, r.success = false → nextCounter r c2 = c2) ∧
      (∀ (r : RenameResult) c2, r.success = true → r.skipped = false →
        nextCounter r c2 = r.counter + 1) := by
  intro fs paths destDir pre tags suf c p
  refine ⟨rfl, ?_, ?_, ?_⟩
  · intro r c2 hs hk; simp [nextCounter, hs, hk]
  · intro r c2 hs; simp [nextCounter, hs]
  · intro r c2 hs hk; simp [nextCounter, hs, hk]

/-- Witness for the C10 theorem at concrete inputs. -/
theorem batch_counter_rule_witness :
    nextCounter
      { success := true, old_path := "a", new_path := "b",
        filename := "f", counter := 5, skipped := true, error := none } 3 = 3 ∧
    nextCounter (errResult "a" 9 "m") 3 = 3 ∧
    nextCounter
      { success := true, old_path := "a", new_path := "b",
        filename := "f", counter := 5, skipped := false, error := none } 3 = 6 := by
  have h := batch_counter_rule fsEmpty [] "/d" "" [] "" 0 "/d/x.jpg"
  exact ⟨h.2.1 _ 3 rfl rfl, h.2.2.1 _ 3 rfl, h.2.2.2 _ 3 rfl rfl⟩

/-! ### Claim C2 — at most one generation in flight per path -/

/-- C2: on the registry model of `queue_thumbnail` (the `_inflight` dict is
a map, so it holds at most one future per canonical path by construction):
calling `queue_thumbnail` while a not-yet-done future for the same path is
registered returns that existing future and leaves the state unchanged —
no new generation is submitted; and when a future settles (success and
failure run the same done-callback), the registry entry for its path is
removed. -/
theorem queue_thumbnail_single_flight :
    (∀ st p f, st.inflight p = some f → st.isDone f = false →
      queue_thumbnail st p false = (f, st)) ∧
    (∀ st p f, (settle_future st p f).inflight p = none ∧
      (settle_future st p f).isDone f = true) := by
  constructor
  · intro st p f hin hdone
    simp [queue_thumbnail, hin, hdone]
  · intro st p f
    exact ⟨by simp [settle_future], by simp [settle_future]⟩

/-- Witness for the C2 theorem at a concrete state. -/
theorem queue_thumbnail_single_flight_witness :
    queue_thumbnail qstW "/a.jpg" false = (0, qstW) :=
  queue_thumbnail_single_flight.1 qstW "/a.jpg" 0 rfl rfl

/-! ### Claim C9 — failed generations are cached like successes -/

/-- C9: thumbnail freshness is decided by `_is_cache_valid` alone — the
returned path is always the deterministic cache path and a decode is
attempted exactly when the cache is stale (and the extension supported),
with no failure marker consulted; after a failed generation writes the
error placeholder at the cache path (its mtime becoming the current time),
every subsequent `get_thumbnail` returns that placeholder without decoding
for as long as the source mtime does not exceed that of the placeholder, and
re-attempts decoding as soon as the source mtime advances past it. -/
theorem error_thumbnail_freshness :
    (∀ fs cacheDir img now,
      (get_thumbnail fs cacheDir img now).path = cache_path_for cacheDir img ∧
      (get_thumbnail fs cacheDir img now).attemptedDecode =
        (!(is_cache_valid fs img (cache_path_for cacheDir img))
          && is_supported_image img)) ∧
    (∀ fs cacheDir img im now,
      fs.mtime img = some im →
      is_supported_image img = true →
      fs.decodable img = false →
      is_cache_valid fs img (cache_path_for cacheDir img) = false →
      ((get_thumbnail fs cacheDir img now).wroteError = true ∧
       (get_thumbnail fs cacheDir img now).attemptedDecode = true ∧
       (get_thumbnail fs cacheDir img now).fs.mtime (cache_path_for cacheDir img)
          = some now ∧
       ∀ (fs2 : TFS) (im2 now2 : Nat),
         fs2.mtime (cache_path_for cacheDir img) = some now →
         fs2.mtime img = some im2 →
         ((im2 ≤ now →
            get_thumbnail fs2 cacheDir img now2 =
              { path := cache_path_for cacheDir img, attemptedDecode := false,
                wroteError := false, fs := fs2 }) ∧
          (now < im2 →
            (get_thumbnail fs2 cacheDir img now2).attemptedDecode = true)))) := by
  constructor
  · intro fs cacheDir img now
    by_cases hv : is_cache_valid fs img (cache_path_for cacheDir img) = true
    · simp [get_thumbnail, hv]
    · have hv2 : is_cache_valid fs img (cache_path_for cacheDir img) = false :=
        by simpa using hv
      by_cases hsup : is_supported_image img = true
      · by_cases hdec : fs.decodable img = true <;>
          simp [get_thumbnail, generate_thumbnail, hv2, hsup, hdec]
      · have hsup2 : is_supported_image img = false := by simpa using hsup
        simp [get_thumbnail, generate_thumbnail, hv2, hsup2]
  · intro fs cacheDir img im now himg hsup hdec hv
    have hdec2 : fs.decodable img = false := hdec
    refine ⟨?_, ?_, ?_, ?_⟩
    · simp [get_thumbnail, generate_thumbnail, hv, hsup, hdec2]
    · simp [get_thumbnail, generate_thumbnail, hv, hsup, hdec2]
    · simp [get_thumbnail, generate_thumbnail, hv, hsup, hdec2, writeFileAt]
    · intro fs2 im2 now2 hc2 hi2
      have hvalid : is_cache_valid fs2 img (cache_path_for cacheDir img) =
          decide (im2 ≤ now) := by
        simp [is_cache_valid, hc2, hi2]
      constructor
      · intro hle
        have : is_cache_valid fs2 img (cache_path_for cacheDir img) = true := by
          rw [hvalid]; simpa using hle
        simp [get_thumbnail, this]
      · intro hlt
        have : is_cache_valid fs2 img (cache_path_for cacheDir img) = false := by
          rw [hvalid]; simpa using Nat.not_le.mpr hlt
        by_cases hdec3 : fs2.decodable img = true <;>
          simp [get_thumbnail, generate_thumbnail, this, hsup, hdec3]

/-- Witness for the C9 theorem at a concrete state. -/
theorem error_thumbnail_freshness_witness :
    (get_thumbnail tfsW "/c" "/pics/a.jpg" 9).wroteError = true ∧
    (get_thumbnail tfsW "/c" "/pics/a.jpg" 9).fs.mtime
        (cache_path_for "/c" "/pics/a.jpg") = some 9 := by
  have h := error_thumbnail_freshness.2 tfsW "/c" "/pics/a.jpg" 5 9
    rfl (by decide) rfl (by decide)
  exact ⟨h.1, h.2.2.1⟩

/-! ### Claim C7 — the collision search loop -/

/-- Full characterization of the search loop, by induction on the fuel
(which, at `10000 - c < fuel`, is never exhausted — the loop body runs for
counters `c, c+1, …` up to at most 9999). -/
theorem find_unique_name_spec (fs : FS) (src destDir pre : String)
    (tags : List String) (suf ext : String) :
    ∀ (fuel c : Nat), 10000 - c < fuel →
      match find_unique_name fs src destDir pre tags suf ext c fuel with
      | .found name k => c ≤ k ∧ k ≤ max 9999 c ∧
          name = generate_filename pre tags suf ext k ∧
          pathExists fs (candidatePath destDir pre tags suf ext k) = false ∧
          ∀ j, c ≤ j → j < k → collides fs src destDir pre tags suf ext j
      | .same name k => c ≤ k ∧ k ≤ max 9999 c ∧
          name = generate_filename pre tags suf ext k ∧
          pathExists fs (candidatePath destDir pre tags suf ext k) = true ∧
          sameFile fs (candidatePath destDir pre tags suf ext k) src = true ∧
          ∀ j, c ≤ j → j < k → collides fs src destDir pre tags suf ext j
      | .exhausted k => k = max 10000 (c + 1) ∧
          ∀ j, c ≤ j → j < k → collides fs src destDir pre tags suf ext j := by
  intro fuel
  induction fuel with
  | zero => intro c h; omega
  | succ fuel ih =>
    intro c h
    simp only [find_unique_name]
    by_cases h1 :
        pathExists fs (joinPath destDir (generate_filename pre tags suf ext c))
          = false
    · rw [if_pos h1]
      exact ⟨le_refl c, le_max_right _ _, rfl, h1,
        fun j hj1 hj2 => absurd hj2 (by omega)⟩
    · rw [if_neg h1]
      have h1t :
          pathExists fs (candidatePath destDir pre tags suf ext c) = true := by
        simpa [candidatePath] using h1
      by_cases h2 :
          sameFile fs (joinPath destDir (generate_filename pre tags suf ext c))
            src = true
      · rw [if_pos h2]
        exact ⟨le_refl c, le_max_right _ _, rfl, h1t, h2,
          fun j hj1 hj2 => absurd hj2 (by omega)⟩
      · rw [if_neg h2]
        have h2f :
            sameFile fs (candidatePath destDir pre tags suf ext c) src
              = false := by
          simpa [candidatePath] using h2
        have hcol : collides fs src destDir pre tags suf ext c := ⟨h1t, h2f⟩
        by_cases h3 : 9999 < c + 1
        · rw [if_pos h3]
          refine ⟨by omega, ?_⟩
          intro j hj1 hj2
          have hj : j = c := by omega
          rwa [hj]
        · rw [if_neg h3]
          have hrec := ih (c + 1) (by omega)
          cases hout : find_unique_name fs src destDir pre tags suf ext (c + 1) fuel with
          | found name k =>
            rw [hout] at hrec
            obtain ⟨hk1, hk2, hk3, hk4, hk5⟩ := hrec
            refine ⟨by omega, by omega, hk3, hk4, ?_⟩
            intro j hj1 hj2
            rcases eq_or_lt_of_le hj1 with rfl | hlt
            · exact hcol
            · exact hk5 j (by omega) hj2
          | same name k =>
            rw [hout] at hrec
            obtain ⟨hk1, hk2, hk3, hk4, hk5, hk6⟩ := hrec
            refine ⟨by omega, by omega, hk3, hk4, hk5, ?_⟩
            intro j hj1 hj2
            rcases eq_or_lt_of_le hj1 with rfl | hlt
            · exact hcol
            · exact hk6 j (by omega) hj2
          | exhausted k =>
            rw [hout] at hrec
            obtain ⟨hk1, hk2⟩ := hrec
            refine ⟨by omega, ?_⟩
            intro j hj1 hj2
            rcases eq_or_lt_of_le hj1 with rfl | hlt
            · exact hcol
            · exact hk2 j (by omega) hj2

/-- C7: once the validations of `rename_file` pass (regular source file,
supported extension, existing destination directory — hypotheses below),
the search starts at the counter of the request, increments it on each
collision, and terminates in exactly one of three ways, each mapped to the
corresponding `rename_file` result: an unused name is found (atomic move,
success), the existing file at the candidate name is the same file as the
source (successful skip), or every counter value through the 9999 cap
collides and the search fails with an error carrying the counter that
exceeded the cap. -/
theorem rename_collision_search :
    ∀ (fs : FS) (src destDir pre : String) (tags : List String) (suf : String)
      (c i : Nat),
      fs.file src = some i → is_supported_image src = true →
      fs.dir destDir = true →
      ((∀ name k,
          find_unique_name fs src destDir pre tags suf (pathExtension src) c
              10001 = .found name k →
          (c ≤ k ∧ k ≤ max 9999 c ∧
           pathExists fs
             (candidatePath destDir pre tags suf (pathExtension src) k) = false ∧
           (∀ j, c ≤ j → j < k →
             collides fs src destDir pre tags suf (pathExtension src) j) ∧
           rename_file fs src destDir pre tags suf c =
             ({ success := true, old_path := src,
                new_path := candidatePath destDir pre tags suf (pathExtension src) k,
                filename := name, counter := k, skipped := false, error := none },
              moveFile fs src
                (candidatePath destDir pre tags suf (pathExtension src) k)))) ∧
       (∀ name k,
          find_unique_name fs src destDir pre tags suf (pathExtension src) c
              10001 = .same name k →
          (c ≤ k ∧ k ≤ max 9999 c ∧
           sameFile fs
             (candidatePath destDir pre tags suf (pathExtension src) k) src = true ∧
           (∀ j, c ≤ j → j < k →
             collides fs src destDir pre tags suf (pathExtension src) j) ∧
           rename_file fs src destDir pre tags suf c =
             ({ success := true, old_path := src,
                new_path := candidatePath destDir pre tags suf (pathExtension src) k,
                filename := name, counter := k, skipped := true, error := none },
              fs))) ∧
       (∀ k,
          find_unique_name fs src destDir pre tags suf (pathExtension src) c
              10001 = .exhausted k →
          (k = max 10000 (c + 1) ∧
           (∀ j, c ≤ j → j < k →
             collides fs src destDir pre tags suf (pathExtension src) j) ∧
           rename_file fs src destDir pre tags suf c =
             (errResult src k "Could not find unique filename after 9999 attempts",
              fs)))) := by
  intro fs src destDir pre tags suf c i hfile hsup hdir
  have hspec := find_unique_name_spec fs src destDir pre tags suf
    (pathExtension src) 10001 c (by omega)
  have hsrcx : pathExists fs src = true := by simp [pathExists, hfile]
  have hddx : pathExists fs destDir = true := by simp [pathExists, hdir]
  have hrf : rename_file fs src destDir pre tags suf c =
      rename_validated fs src destDir pre tags suf c := by
    unfold rename_file
    rw [if_neg (by simp [hsrcx]), if_neg (by simp [hfile]),
      if_neg (by simp [hsup]), if_neg (by simp [hddx])]
  refine ⟨?_, ?_, ?_⟩
  · intro name k hfind
    rw [hfind] at hspec
    obtain ⟨hk1, hk2, hk3, hk4, hk5⟩ := hspec
    refine ⟨hk1, hk2, hk4, hk5, ?_⟩
    rw [hrf]
    unfold rename_validated
    rw [if_neg (by simp [hdir])]
    simp only [hfind]
    subst hk3
    rfl
  · intro name k hfind
    rw [hfind] at hspec
    obtain ⟨hk1, hk2, hk3, hk4, hk5, hk6⟩ := hspec
    refine ⟨hk1, hk2, hk5, hk6, ?_⟩
    rw [hrf]
    unfold rename_validated
    rw [if_neg (by simp [hdir])]
    simp only [hfind]
    subst hk3
    rfl
  · intro k hfind
    rw [hfind] at hspec
    obtain ⟨hk1, hk2⟩ := hspec
    refine ⟨hk1, hk2, ?_⟩
    rw [hrf]
    unfold rename_validated
    rw [if_neg (by simp [hdir])]
    simp only [hfind]

/-- Witness for the C7 theorem at a concrete filesystem where the first
candidate name is free. -/
theorem rename_collision_search_witness :
    rename_file fsW "/d/x.jpg" "/d" "p" [] "" 0 =
      ({ success := true, old_path := "/d/x.jpg",
         new_path := candidatePath "/d" "p" [] "" (pathExtension "/d/x.jpg") 0,
         filename := "p_000.jpg", counter := 0, skipped := false,
         error := none },
       moveFile fsW "/d/x.jpg"
         (candidatePath "/d" "p" [] "" (pathExtension "/d/x.jpg") 0)) := by
  have h := (rename_collision_search fsW "/d/x.jpg" "/d" "p" [] "" 0 1
    rfl (by decide) rfl).1 "p_000.jpg" 0 (by decide)
  exact h.2.2.2.2

/-! ### Claim C6 — helper lemmas on paths and digits -/

theorem takeWhile_append_all {α : Type} (p : α → Bool) (l1 l2 : List α)
    (h : ∀ c ∈ l1, p c = true) :
    (l1 ++ l2).takeWhile p = l1 ++ l2.takeWhile p := by
  induction l1 with
  | nil => simp
  | cons x xs ih =>
    simp only [List.cons_append, List.takeWhile_cons_of_pos (h x (by simp))]
    rw [ih (fun c hc => h c (by simp [hc]))]

theorem dropWhile_append_all {α : Type} (p : α → Bool) (l1 l2 : List α)
    (h : ∀ c ∈ l1, p c = true) :
    (l1 ++ l2).dropWhile p = l2.dropWhile p := by
  induction l1 with
  | nil => simp
  | cons x xs ih =>
    simp only [List.cons_append, List.dropWhile_cons_of_pos (h x (by simp))]
    exact ih (fun c hc => h c (by simp [hc]))

theorem digitChar_isDigit {m : Nat} (h : m < 10) :
    (Nat.digitChar m).isDigit = true := by
  interval_cases m <;> rfl

theorem toDigitsCore_digits :
    ∀ (fuel n : Nat) (acc : List Char),
      (∀ c ∈ acc, c.isDigit = true) →
      ∀ c ∈ Nat.toDigitsCore 10 fuel n acc, c.isDigit = true := by
  intro fuel
  induction fuel with
  | zero =>
    intro n acc hacc
    simpa [Nat.toDigitsCore] using hacc
  | succ fuel ih =>
    intro n acc hacc
    simp only [Nat.toDigitsCore]
    have hstep : ∀ c ∈ Nat.digitChar (n % 10) :: acc, c.isDigit = true := by
      intro c hc
      rcases List.mem_cons.mp hc with rfl | hc2
      · exact digitChar_isDigit (Nat.mod_lt _ (by norm_num))
      · exact hacc c hc2
    split
    · exact hstep
    · exact ih _ _ hstep

theorem toDigitsCore_length_succ :
    ∀ (fuel n : Nat) (acc : List Char),
      acc.length + 1 ≤ (Nat.toDigitsCore 10 (fuel + 1) n acc).length := by
  intro fuel
  induction fuel with
  | zero =>
    intro n acc
    have hstep : Nat.toDigitsCore 10 1 n acc =
        if n / 10 = 0 then Nat.digitChar (n % 10) :: acc
        else Nat.toDigitsCore 10 0 (n / 10) (Nat.digitChar (n % 10) :: acc) := rfl
    rw [hstep]
    split <;> simp [Nat.toDigitsCore]
  | succ fuel ih =>
    intro n acc
    have hstep : Nat.toDigitsCore 10 (fuel + 1 + 1) n acc =
        if n / 10 = 0 then Nat.digitChar (n % 10) :: acc
        else Nat.toDigitsCore 10 (fuel + 1) (n / 10) (Nat.digitChar (n % 10) :: acc) := rfl
    rw [hstep]
    split
    · simp
    · have h := ih (n / 10) (Nat.digitChar (n % 10) :: acc)
      simp only [List.length_cons] at h
      omega

theorem repr_data_digits (n : Nat) :
    ∀ c ∈ (Nat.repr n).data, c.isDigit = true := by
  intro c hc
  have hrepr : (Nat.repr n).data = Nat.toDigitsCore 10 (n + 1) n [] := rfl
  rw [hrepr] at hc
  exact toDigitsCore_digits (n + 1) n [] (by simp) c hc

theorem repr_data_ne_nil (n : Nat) : (Nat.repr n).data ≠ [] := by
  have hrepr : (Nat.repr n).data = Nat.toDigitsCore 10 (n + 1) n [] := rfl
  intro h
  have hlen := toDigitsCore_length_succ n n []
  rw [← hrepr, h] at hlen
  simp at hlen

theorem pad3_getLast_digit (n : Nat) :
    ∃ ch, (pad3 n).data.getLast? = some ch ∧ ch.isDigit = true := by
  cases hl : (Nat.repr n).data.getLast? with
  | none => exact absurd (List.getLast?_eq_none_iff.mp hl) (repr_data_ne_nil n)
  | some ch =>
    refine ⟨ch, ?_, repr_data_digits n ch (List.mem_of_mem_getLast? hl)⟩
    have hdata : (pad3 n).data =
        List.replicate (3 - (Nat.repr n).length) '0' ++ (Nat.repr n).data := by
      simp [pad3, String.data_append]
    rw [hdata, List.getLast?_append, hl]
    rfl

theorem pathExtension_append (w ext : String) (t : List Char)
    (hext : ext.data = '.' :: t) (ht : t ≠ [])
    (htc : ∀ c ∈ t, c ≠ '.' ∧ c ≠ '/')
    (ch : Char) (hw : w.data.getLast? = some ch) (hch : ch ≠ '/') :
    pathExtension (w ++ ext) = ext := by
  have hhead : w.data.reverse.head? = some ch := by
    rw [List.head?_reverse]; exact hw
  obtain ⟨l0, hwr⟩ : ∃ l0, w.data.reverse = ch :: l0 := by
    cases hw2 : w.data.reverse with
    | nil => rw [hw2] at hhead; simp at hhead
    | cons c0 l0 =>
      rw [hw2] at hhead
      simp only [List.head?_cons, Option.some.injEq] at hhead
      exact ⟨l0, by rw [hhead]⟩
  have hdata : (w ++ ext).data.reverse = t.reverse ++ ('.' :: ch :: l0) := by
    rw [String.data_append, List.reverse_append, hext, List.reverse_cons, hwr]
    rw [List.append_assoc, List.singleton_append]
  have hall1 : ∀ c ∈ t.reverse, (decide (c ≠ '/')) = true := by
    intro c hc
    simp only [decide_eq_true_eq]
    exact (htc c (List.mem_reverse.mp hc)).2
  have hall2 : ∀ c ∈ t.reverse, (decide (c ≠ '.')) = true := by
    intro c hc
    simp only [decide_eq_true_eq]
    exact (htc c (List.mem_reverse.mp hc)).1
  simp only [pathExtension, hdata]
  rw [takeWhile_append_all _ _ _ hall1,
    List.takeWhile_cons_of_pos (by decide),
    @List.takeWhile_cons_of_pos Char (fun c => decide (c ≠ '/')) ch l0
      (by simpa using hch)]
  rw [dropWhile_append_all _ _ _ hall2,
    List.dropWhile_cons_of_neg (by simp)]
  rw [takeWhile_append_all _ _ _ hall2,
    List.takeWhile_cons_of_neg (by simp)]
  simp only [List.append_nil]
  rw [if_neg (by simp [ht])]
  exact congrArg String.mk (by rw [List.reverse_reverse, ← hext])

theorem pathExtension_shape (p : String) :
    pathExtension p = "" ∨
    ∃ t, (pathExtension p).data = '.' :: t ∧ t ≠ [] ∧
      ∀ c ∈ t, c ≠ '.' ∧ c ≠ '/' := by
  simp only [pathExtension]
  split
  · left; rfl
  · rename_i x b heq
    split
    · left; rfl
    · rename_i hcond
      right
      refine ⟨_, rfl, ?_, ?_⟩
      · intro hnil
        have ha := congrArg List.reverse hnil
        simp only [List.reverse_reverse, List.reverse_nil] at ha
        exact hcond (by rw [ha]; simp)
      · intro c hc
        have hc1 : c ∈ (p.data.reverse.takeWhile (fun c => decide (c ≠ '/'))).takeWhile
            (fun c => decide (c ≠ '.')) := List.mem_reverse.mp hc
        constructor
        · simpa using List.mem_takeWhile_imp hc1
        · have hc2 : c ∈ p.data.reverse.takeWhile (fun c => decide (c ≠ '/')) :=
            (List.takeWhile_sublist _).subset hc1
          simpa using List.mem_takeWhile_imp hc2

theorem pathExtension_ne_empty_of_supported (p : String)
    (h : is_supported_image p = true) : pathExtension p ≠ "" := by
  intro he
  rw [is_supported_image, he] at h
  exact absurd h (by decide)

theorem pathExtension_candidate (destDir pre : String) (tags : List String)
    (suf ext : String) (k : Nat) (t : List Char)
    (hext : ext.data = '.' :: t) (ht : t ≠ [])
    (htc : ∀ c ∈ t, c ≠ '.' ∧ c ≠ '/') :
    pathExtension (candidatePath destDir pre tags suf ext k) = ext := by
  have hdot : pyStartsWithDot ext = true := by
    unfold pyStartsWithDot
    rw [hext]
    rfl
  obtain ⟨b, hb⟩ : ∃ b : String,
      generate_filename pre tags suf ext k = (b ++ pad3 k) ++ ext := by
    refine ⟨(if ((if pre = "" then [] else [pre]) ++ pySortedByLower tags ++
        (if suf = "" then [] else [suf])).isEmpty then "untitled"
      else String.intercalate "_"
        ((if pre = "" then [] else [pre]) ++ pySortedByLower tags ++
          (if suf = "" then [] else [suf]))) ++ "_", ?_⟩
    simp only [generate_filename]
    have hcond : ¬(ext ≠ "" ∧ ¬ pyStartsWithDot ext = true) := by simp [hdot]
    rw [if_neg hcond]
  have hc : candidatePath destDir pre tags suf ext k =
      ((destDir ++ "/") ++ (b ++ pad3 k)) ++ ext := by
    unfold candidatePath joinPath
    rw [hb]
    simp [String.append_assoc]
  rw [hc]
  obtain ⟨ch, hch1, hch2⟩ := pad3_getLast_digit k
  have hlast : ((destDir ++ "/") ++ (b ++ pad3 k)).data.getLast? = some ch := by
    rw [String.data_append, List.getLast?_append, String.data_append,
      List.getLast?_append, hch1]
    rfl
  have hch3 : ch ≠ '/' := by
    intro h
    rw [h] at hch2
    exact absurd hch2 (by decide)
  exact pathExtension_append _ ext t hext ht htc ch hlast hch3

theorem sameFile_self {fs : FS} {p : String} {i : Nat} (h : fs.file p = some i) :
    sameFile fs p p = true := by
  simp [sameFile, h]

theorem mkdirIf_file (fs : FS) (d : String) :
    (if pathExists fs d = false then mkdirP fs d else fs).file = fs.file := by
  split <;> rfl

theorem rename_file_eq (fs : FS) (src destDir pre : String) (tags : List String)
    (suf : String) (c : Nat)
    (h1 : pathExists fs src = true) (h2 : (fs.file src).isNone = false)
    (h3 : is_supported_image src = true) :
    rename_file fs src destDir pre tags suf c =
      rename_validated
        (if pathExists fs destDir = false then mkdirP fs destDir else fs)
        src destDir pre tags suf c := by
  unfold rename_file
  rw [if_neg (by simp [h1]), if_neg (by simp [h2]), if_neg (by simp [h3])]

/-- C6 counterexample: calling `rename_file` a second time with literally
the same arguments, after a first call that successfully moved the source
to its target name, does not skip — the source path no longer exists, so
the second call fails with "Source file does not exist" instead of
reporting a successful no-op. -/
theorem rename_file_rerun_cex :
    (rename_file fsW "/d/x.jpg" "/d" "p" [] "" 0).1.success = true ∧
    (rename_file fsW "/d/x.jpg" "/d" "p" [] "" 0).1.skipped = false ∧
    (rename_file (rename_file fsW "/d/x.jpg" "/d" "p" [] "" 0).2
        "/d/x.jpg" "/d" "p" [] "" 0).1.success = false ∧
    (rename_file (rename_file fsW "/d/x.jpg" "/d" "p" [] "" 0).2
        "/d/x.jpg" "/d" "p" [] "" 0).1.skipped = false ∧
    (rename_file (rename_file fsW "/d/x.jpg" "/d" "p" [] "" 0).2
        "/d/x.jpg" "/d" "p" [] "" 0).1.error
      = some "Source file does not exist" :=
  ⟨by decide, by decide, by decide, by decide, by decide⟩

/-- C6 (amended): after a call that successfully renamed the source (not a
skip), running `rename_file` again on the renamed file — the first result,
`new_path` — with the same destination directory, prefix, tags, suffix and
starting counter is a successful no-op: the search finds that the existing
file at the candidate destination is literally the same file as the
source, so the call reports success with skipped = true, returns that same
destination path, performs no rename and leaves the filesystem unchanged. -/
theorem rename_file_rerun_skips :
    ∀ (fs : FS) (src destDir pre : String) (tags : List String) (suf : String)
      (c : Nat) (r : RenameResult) (fs2 : FS),
      rename_file fs src destDir pre tags suf c = (r, fs2) →
      r.success = true → r.skipped = false →
      ((rename_file fs2 r.new_path destDir pre tags suf c).1.success = true ∧
       (rename_file fs2 r.new_path destDir pre tags suf c).1.skipped = true ∧
       (rename_file fs2 r.new_path destDir pre tags suf c).1.new_path
          = r.new_path ∧
       (rename_file fs2 r.new_path destDir pre tags suf c).2 = fs2) := by
  intro fs src destDir pre tags suf c r fs2 hcall hs hk
  by_cases hx1 : pathExists fs src = false
  · unfold rename_file at hcall
    rw [if_pos hx1] at hcall
    have hbad := congrArg (fun q => q.1.success) hcall
    simp [errResult] at hbad
    rw [hs] at hbad
    exact absurd hbad (by decide)
  have h1t : pathExists fs src = true := by
    revert hx1; cases pathExists fs src <;> simp
  cases hfs : fs.file src with
  | none =>
    unfold rename_file at hcall
    rw [if_neg (by simp [h1t]), if_pos (by simp [hfs])] at hcall
    have hbad := congrArg (fun q => q.1.success) hcall
    simp [errResult] at hbad
    rw [hs] at hbad
    exact absurd hbad (by decide)
  | some i =>
  by_cases hx3 : is_supported_image src = false
  · unfold rename_file at hcall
    rw [if_neg (by simp [h1t]), if_neg (by simp [hfs]), if_pos hx3] at hcall
    have hbad := congrArg (fun q => q.1.success) hcall
    simp [errResult] at hbad
    rw [hs] at hbad
    exact absurd hbad (by decide)
  have h3t : is_supported_image src = true := by
    revert hx3; cases is_supported_image src <;> simp
  rw [rename_file_eq fs src destDir pre tags suf c h1t (by simp [hfs]) h3t]
    at hcall
  set fs1 := if pathExists fs destDir = false then mkdirP fs destDir else fs
    with hfs1
  unfold rename_validated at hcall
  by_cases hdd : fs1.dir destDir = false
  · rw [if_pos hdd] at hcall
    have hbad := congrArg (fun q => q.1.success) hcall
    simp [errResult] at hbad
    rw [hs] at hbad
    exact absurd hbad (by decide)
  rw [if_neg hdd] at hcall
  have hdir1 : fs1.dir destDir = true := by
    revert hdd; cases fs1.dir destDir <;> simp
  have hfile1 : fs1.file src = some i := by
    rw [hfs1, mkdirIf_file]; exact hfs
  cases hfind :
      find_unique_name fs1 src destDir pre tags suf (pathExtension src) c 10001
    with
  | same name k =>
    simp only [hfind] at hcall
    have hbad := congrArg (fun q => q.1.skipped) hcall
    simp at hbad
    rw [hk] at hbad
    exact absurd hbad (by decide)
  | exhausted k =>
    simp only [hfind] at hcall
    have hbad := congrArg (fun q => q.1.success) hcall
    simp [errResult] at hbad
    rw [hs] at hbad
    exact absurd hbad (by decide)
  | found name k =>
  simp only [hfind] at hcall
  have hr : r =
      { success := true, old_path := src,
        new_path := joinPath destDir name, filename := name, counter := k,
        skipped := false, error := none } :=
    (congrArg Prod.fst hcall).symm
  have hfs2 : fs2 = moveFile fs1 src (joinPath destDir name) :=
    (congrArg Prod.snd hcall).symm
  subst hr
  subst hfs2
  dsimp only
  have hspec := find_unique_name_spec fs1 src destDir pre tags suf
    (pathExtension src) 10001 c (by omega)
  rw [hfind] at hspec
  obtain ⟨hk1, hk2, hk3, hk4, hk5⟩ := hspec
  set ext := pathExtension src with hextdef
  set dst := joinPath destDir name with hdstdef
  have hdst_cand : dst = candidatePath destDir pre tags suf ext k := by
    rw [hdstdef, hk3]; rfl
  have hcand_ne_src : ∀ j, c ≤ j → j < k →
      candidatePath destDir pre tags suf ext j ≠ src := by
    intro j hj1 hj2 heq
    obtain ⟨hce, hcs⟩ := hk5 j hj1 hj2
    rw [heq] at hcs
    rw [sameFile_self hfile1] at hcs
    exact absurd hcs (by decide)
  have hfile2dst : (moveFile fs1 src dst).file dst = some i := by
    simp [moveFile, hfile1]
  have hne : ext ≠ "" := pathExtension_ne_empty_of_supported src h3t
  obtain ⟨t, hext_data, ht, htc⟩ :
      ∃ t, ext.data = '.' :: t ∧ t ≠ [] ∧ ∀ c ∈ t, c ≠ '.' ∧ c ≠ '/' := by
    rcases pathExtension_shape src with h | ⟨t, ha, hb, hc2⟩
    · exact absurd h hne
    · exact ⟨t, ha, hb, hc2⟩
  have hpext_dst : pathExtension dst = ext := by
    rw [hdst_cand]
    exact pathExtension_candidate destDir pre tags suf ext k t hext_data ht htc
  have hsup2 : is_supported_image dst = true := by
    unfold is_supported_image at h3t ⊢
    rw [hpext_dst]
    exact h3t
  have hpe2 : pathExists (moveFile fs1 src dst) dst = true := by
    simp [pathExists, hfile2dst]
  rw [rename_file_eq (moveFile fs1 src dst) dst destDir pre tags suf c hpe2
    (by simp [hfile2dst]) hsup2]
  have hdd2 : pathExists (moveFile fs1 src dst) destDir = true := by
    simp [pathExists, moveFile, hdir1]
  rw [if_neg (by simp [hdd2])]
  unfold rename_validated
  rw [if_neg (by simp [moveFile, hdir1])]
  have hspec2 := find_unique_name_spec (moveFile fs1 src dst) dst destDir pre
    tags suf ext 10001 c (by omega)
  simp only [hpext_dst]
  cases hfind2 :
      find_unique_name (moveFile fs1 src dst) dst destDir pre tags suf ext c
        10001
    with
  | found name2 k2 =>
    exfalso
    rw [hfind2] at hspec2
    obtain ⟨hq1, hq2, hq3, hq4, hq5⟩ := hspec2
    rcases lt_trichotomy k2 k with hlt | rfl | hgt
    · by_cases hpd : candidatePath destDir pre tags suf ext k2 = dst
      · rw [hpd] at hq4
        rw [hq4] at hpe2
        exact absurd hpe2 (by decide)
      · have hne_src := hcand_ne_src k2 hq1 hlt
        have hsame : pathExists (moveFile fs1 src dst)
            (candidatePath destDir pre tags suf ext k2)
            = pathExists fs1 (candidatePath destDir pre tags suf ext k2) := by
          simp [pathExists, moveFile, hpd, hne_src]
        rw [hsame] at hq4
        obtain ⟨hce, _⟩ := hk5 k2 hq1 hlt
        rw [hce] at hq4
        exact absurd hq4 (by decide)
    · rw [← hdst_cand] at hq4
      rw [hq4] at hpe2
      exact absurd hpe2 (by decide)
    · obtain ⟨_, hcs⟩ := hq5 k hk1 hgt
      rw [← hdst_cand] at hcs
      rw [sameFile_self hfile2dst] at hcs
      exact absurd hcs (by decide)
  | exhausted k2 =>
    exfalso
    rw [hfind2] at hspec2
    obtain ⟨hq1, hq2⟩ := hspec2
    have hklt : k < k2 := by omega
    obtain ⟨_, hcs⟩ := hq2 k hk1 hklt
    rw [← hdst_cand] at hcs
    rw [sameFile_self hfile2dst] at hcs
    exact absurd hcs (by decide)
  | same name2 k2 =>
    rw [hfind2] at hspec2
    obtain ⟨hq1, hq2, hq3, hq4, hq5, hq6⟩ := hspec2
    have hjoin : joinPath destDir name2 = dst := by
      rcases lt_trichotomy k2 k with hlt | rfl | hgt
      · by_cases hpd : candidatePath destDir pre tags suf ext k2 = dst
        · rw [hq3]
          exact hpd
        · exfalso
          have hne_src := hcand_ne_src k2 hq1 hlt
          obtain ⟨hce1, hcs1⟩ := hk5 k2 hq1 hlt
          have hfs2c : (moveFile fs1 src dst).file
              (candidatePath destDir pre tags suf ext k2)
              = fs1.file (candidatePath destDir pre tags suf ext k2) := by
            simp [moveFile, hpd, hne_src]
          rw [show sameFile (moveFile fs1 src dst)
              (candidatePath destDir pre tags suf ext k2) dst
              = sameFile (moveFile fs1 src dst)
                (candidatePath destDir pre tags suf ext k2) dst from rfl] at hq5
          simp only [sameFile, hfs2c, hfile2dst] at hq5
          cases hfc : fs1.file (candidatePath destDir pre tags suf ext k2) with
          | none => rw [hfc] at hq5; simp at hq5
          | some m =>
            rw [hfc] at hq5
            simp only [beq_iff_eq] at hq5
            subst hq5
            simp only [sameFile, hfc, hfile1, beq_self_eq_true] at hcs1
            exact absurd hcs1 (by decide)
      · rw [hq3]
        exact hdst_cand.symm
      · exfalso
        obtain ⟨_, hcs⟩ := hq6 k hk1 hgt
        rw [← hdst_cand] at hcs
        rw [sameFile_self hfile2dst] at hcs
        exact absurd hcs (by decide)
    simp only [hfind2]
    exact ⟨trivial, trivial, hjoin, trivial⟩

/-- Witness for the amended C6 theorem at a concrete filesystem. -/
theorem rename_file_rerun_skips_witness :
    ((rename_file (rename_file fsW "/d/x.jpg" "/d" "q" [] "" 0).2
        (rename_file fsW "/d/x.jpg" "/d" "q" [] "" 0).1.new_path
        "/d" "q" [] "" 0).1.skipped = true) ∧
    ((rename_file (rename_file fsW "/d/x.jpg" "/d" "q" [] "" 0).2
        (rename_file fsW "/d/x.jpg" "/d" "q" [] "" 0).1.new_path
        "/d" "q" [] "" 0).2 = (rename_file fsW "/d/x.jpg" "/d" "q" [] "" 0).2) := by
  have h := rename_file_rerun_skips fsW "/d/x.jpg" "/d" "q" [] "" 0
    (rename_file fsW "/d/x.jpg" "/d" "q" [] "" 0).1
    (rename_file fsW "/d/x.jpg" "/d" "q" [] "" 0).2
    rfl (by decide) (by decide)
  exact ⟨h.2.1, h.2.2.2⟩


end ImageShell
